import Mathlib

/- Verification of the Minesweeper rules engine (src/model.rs of welf/rusty-minesweeper).

   Modelling conventions:
   * u16 machine integers are modelled as Nat; u16 multiplication wraps at
     65536 (made explicit as `% 65536` in the constructor's validity check)
     and `saturating_add 1` is `min (x + 1) 65535`, `saturating_sub 1` is
     Nat subtraction (which already saturates at 0).
   * `HashSet<Position>` is modelled as `Finset Position`.
   * The source iterates `self.neighbours(pos)` (a `HashSet`) in an
     unspecified order; the model fixes the enumeration order produced by
     `neighboursList` (row-major over the 3x3 block).  The source's
     `neighbours` collects exactly the elements of this duplicate-free list.
   * Random mine placement (`rand::thread_rng().gen_range`) is modelled by an
     explicit list of draws consumed by the rejection-sampling loop; a draw
     `(a, b)` yields the in-range sample `(a % width, b % height)` just as
     `gen_range(0..width)` yields a value `< width`.  Running out of draws
     models non-termination of the loop and yields `none`.
   * `open` is recursive through the flood fill; the Lean definition returns
     a subtype whose propositional component records the invariants of the
     call (state components preserved, monotonicity, soundness and
     completeness of the flood fill).  This payload is what makes the
     well-founded recursion go through and is the source of all later
     theorems; the computational content mirrors `Minesweeper::open` /
     `Minesweeper::open_position` exactly. -/

abbrev Position : Type := Nat × Nat

structure Minesweeper where
  width : Nat
  height : Nat
  open_positions : Finset Position
  mines : Finset Position
  flagged_positions : Finset Position
  game_over : Bool
  deriving DecidableEq

/-- The closed u16 interval a..=b as a list (helper for the 3x3 neighbour block). -/
def rangeIcc (a b : Nat) : List Nat := (List.range (b + 1 - a)).map (a + ·)

/-- `Minesweeper::neighbours`: the 3x3 block around `p` (with u16 saturating
arithmetic at the borders), minus `p` itself, restricted to the grid. -/
def neighboursList (b : Minesweeper) (p : Position) : List Position :=
  ((rangeIcc (p.1 - 1) (min (p.1 + 1) 65535)).flatMap (fun i =>
    (rangeIcc (p.2 - 1) (min (p.2 + 1) 65535)).map (fun j => (i, j)))).filter
    (fun q => q ≠ p ∧ q.1 < b.width ∧ q.2 < b.height)

/-- The neighbour set (the source collects the positions into a `HashSet`). -/
def neighbours (b : Minesweeper) (p : Position) : Finset Position :=
  (neighboursList b p).toFinset

/-- `Minesweeper::mines_around`: count the neighbours that carry a mine. -/
def mines_around (b : Minesweeper) (p : Position) : Nat :=
  ((neighboursList b p).filter (fun q => q ∈ b.mines)).length

/-- `Minesweeper::can_be_opened`. -/
def can_be_opened (b : Minesweeper) (p : Position) : Prop :=
  p ∉ b.open_positions ∧ p ∉ b.flagged_positions ∧ b.game_over = false

instance (b : Minesweeper) (p : Position) : Decidable (can_be_opened b p) :=
  inferInstanceAs (Decidable (_ ∧ _ ∧ _))

/-- `Minesweeper::toggle_flag`. -/
def toggle_flag (b : Minesweeper) (p : Position) : Minesweeper :=
  if b.game_over then b
  else if p ∈ b.flagged_positions then
    { b with flagged_positions := b.flagged_positions.erase p }
  else
    { b with flagged_positions := insert p b.flagged_positions }

/-- All in-grid positions. -/
def gridFinset (b : Minesweeper) : Finset Position :=
  Finset.range b.width ×ˢ Finset.range b.height

/-- The `assert!` condition of `Minesweeper::new`; `width * height` is a u16
multiplication, so it wraps at 65536. -/
def validParams (width height mines_count : Nat) : Prop :=
  0 < width ∧ 0 < height ∧ 0 < mines_count ∧ mines_count < (width * height) % 65536

instance (w h mc : Nat) : Decidable (validParams w h mc) :=
  inferInstanceAs (Decidable (_ ∧ _ ∧ _ ∧ _))

/-- The rejection-sampling loop of `Minesweeper::new`: keep drawing random
positions and inserting them until the set holds `mines_count` elements.
`draws` supplies the random samples; exhausting it yields `none`. -/
def placeMinesLoop (width height mines_count : Nat) :
    List (Nat × Nat) → Finset Position → Option (Finset Position)
  | [], mines => if mines.card < mines_count then none else some mines
  | d :: ds, mines =>
    if mines.card < mines_count then
      placeMinesLoop width height mines_count ds (insert (d.1 % width, d.2 % height) mines)
    else some mines

/-- `Minesweeper::new`, parameterised by the stream of random draws. -/
def new (width height mines_count : Nat) (draws : List (Nat × Nat)) : Option Minesweeper :=
  if validParams width height mines_count then
    (placeMinesLoop width height mines_count draws ∅).map (fun mines =>
      { width := width, height := height, open_positions := ∅, mines := mines,
        flagged_positions := ∅, game_over := false })
  else none

/-- Construction succeeds for some sequence of random draws. -/
def constructionSucceeds (width height mines_count : Nat) : Prop :=
  ∃ draws b, new width height mines_count draws = some b

def CELL : String := "🟨"

def FLAG : String := "🇷🇺"

def MINE : String := "💣"

def EXPLOSION : String := "💥"

/-- The per-cell token of `impl Display for Minesweeper` (without the
trailing space, which `renderRow` appends). -/
def cellToken (b : Minesweeper) (p : Position) : String :=
  if b.game_over = false then
    if p ∈ b.open_positions then toString (mines_around b p)
    else if p ∈ b.flagged_positions then FLAG
    else CELL
  else
    if p ∈ b.mines then
      if p ∈ b.open_positions then EXPLOSION else MINE
    else toString (mines_around b p)

/-- One row of the rendering: `width` tokens, each followed by a space. -/
def renderRow (b : Minesweeper) (y : Nat) : String :=
  String.join ((List.range b.width).map (fun x => cellToken b (x, y) ++ " "))

/-- `impl Display for Minesweeper`: after each row the source appends a
newline when `(0..height).contains(&y)` — which holds for every row of the
loop, the last one included. -/
def render (b : Minesweeper) : String :=
  String.join ((List.range b.height).map (fun y =>
    renderRow b y ++ (if y < b.height then "\n" else "")))

/-- Positions the flood fill started at `p0` can reach: `p0` itself, and
transitively the unflagged, not-yet-open in-grid neighbours of reached
zero-count cells. -/
inductive Reach (b : Minesweeper) (p0 : Position) : Position → Prop
  | base : Reach b p0 p0
  | step {q r : Position} : Reach b p0 q → mines_around b q = 0 →
      r ∈ neighboursList b q → r ∉ b.open_positions → r ∉ b.flagged_positions →
      Reach b p0 r

/-- Modelled from the spec (claim C5 wording): connectivity of the revealed
region through zero-count, non-flagged cells — already-open cells are not
excluded by the claim. -/
inductive ReachSpec (b : Minesweeper) (p0 : Position) : Position → Prop
  | base : ReachSpec b p0 p0
  | step {q r : Position} : ReachSpec b p0 q → mines_around b q = 0 →
      q ∉ b.flagged_positions → r ∈ neighboursList b q → ReachSpec b p0 r

/-- Every cell newly opened between states `b` and `b'` that has no
surrounding mines has all its unflagged neighbours opened in `b'`. -/
def Closed (b b' : Minesweeper) : Prop :=
  ∀ q ∈ b'.open_positions, q ∉ b.open_positions → mines_around b q = 0 →
    ∀ r ∈ neighboursList b q, r ∉ b.flagged_positions → r ∈ b'.open_positions

/-- State components `open` never touches, plus monotonicity of the open set;
newly opened cells are never flagged (the guard rechecks the flag). -/
structure Preserved (b b' : Minesweeper) : Prop where
  width_eq : b'.width = b.width
  height_eq : b'.height = b.height
  mines_eq : b'.mines = b.mines
  flagged_eq : b'.flagged_positions = b.flagged_positions
  open_mono : b.open_positions ⊆ b'.open_positions
  new_unflagged : ∀ q ∈ b'.open_positions, q ∈ b.open_positions ∨ q ∉ b.flagged_positions

/-- Full specification of one `Minesweeper::open` call. -/
structure POpen (b : Minesweeper) (pos : Position) (b' : Minesweeper) : Prop where
  pres : Preserved b b'
  skip : ¬ can_be_opened b pos → b' = b
  opens : can_be_opened b pos → pos ∈ b'.open_positions
  mine_case : can_be_opened b pos → pos ∈ b.mines →
    b' = { b with open_positions := insert pos b.open_positions, game_over := true }
  safe_case : can_be_opened b pos → pos ∉ b.mines →
    b'.game_over = b.game_over ∧
      ∀ q ∈ b'.open_positions, q ∈ b.open_positions ∨ q ∉ b.mines
  sound : ∀ r ∈ b'.open_positions, r ∈ b.open_positions ∨ Reach b pos r
  closed : can_be_opened b pos → pos ∉ b.mines → Closed b b'

/-- Full specification of the `for_each` loop over the neighbour list. -/
structure QList (b : Minesweeper) (qs : List Position) (b' : Minesweeper) : Prop where
  pres : Preserved b b'
  sound : ∀ r ∈ b'.open_positions, r ∈ b.open_positions ∨
    ∃ q ∈ qs, can_be_opened b q ∧ Reach b q r
  safe : (∀ q ∈ qs, q ∉ b.mines) →
    b'.game_over = b.game_over ∧
    (∀ r ∈ b'.open_positions, r ∈ b.open_positions ∨ r ∉ b.mines) ∧
    Closed b b' ∧
    (∀ q ∈ qs, q ∉ b.flagged_positions → b.game_over = false → q ∈ b'.open_positions)

theorem mem_rangeIcc {a b k : Nat} : k ∈ rangeIcc a b ↔ a ≤ k ∧ k ≤ b := by
  unfold rangeIcc
  simp only [List.mem_map, List.mem_range]
  constructor
  · rintro ⟨i, hi, rfl⟩; omega
  · rintro ⟨h1, h2⟩; exact ⟨k - a, by omega, by omega⟩

theorem nodup_rangeIcc {a b : Nat} : (rangeIcc a b).Nodup :=
  (List.nodup_range _).map fun _ _ h => by omega

theorem mem_neighboursList {b : Minesweeper} {p q : Position} :
    q ∈ neighboursList b p ↔
      p.1 - 1 ≤ q.1 ∧ q.1 ≤ min (p.1 + 1) 65535 ∧
      p.2 - 1 ≤ q.2 ∧ q.2 ≤ min (p.2 + 1) 65535 ∧
      q ≠ p ∧ q.1 < b.width ∧ q.2 < b.height := by
  unfold neighboursList
  simp only [List.mem_filter, List.mem_flatMap, List.mem_map, mem_rangeIcc,
    decide_eq_true_eq]
  constructor
  · rintro ⟨⟨i, hi, j, hj, rfl⟩, h⟩
    exact ⟨hi.1, hi.2, hj.1, hj.2, h.1, h.2.1, h.2.2⟩
  · rintro ⟨h1, h2, h3, h4, h5, h6, h7⟩
    exact ⟨⟨q.1, ⟨h1, h2⟩, q.2, ⟨h3, h4⟩, rfl⟩, h5, h6, h7⟩

theorem nodup_neighboursList {b : Minesweeper} {p : Position} :
    (neighboursList b p).Nodup := by
  unfold neighboursList
  refine List.Nodup.filter _ ?_
  rw [List.nodup_flatMap]
  refine ⟨fun i _ => nodup_rangeIcc.map fun a a' h => ?_, ?_⟩
  · exact congrArg Prod.snd h
  · refine List.Pairwise.imp ?_ nodup_rangeIcc
    intro i i' hne x hx hx'
    simp only [Function.onFun, List.mem_map] at hx hx'
    obtain ⟨j, _, rfl⟩ := hx
    obtain ⟨j', _, h⟩ := hx'
    exact hne (congrArg Prod.fst h.symm)

theorem neighboursList_bounds {b : Minesweeper} {p q : Position}
    (h : q ∈ neighboursList b p) : q.1 < b.width ∧ q.2 < b.height := by
  have := mem_neighboursList.1 h
  exact ⟨this.2.2.2.2.2.1, this.2.2.2.2.2.2⟩

theorem neighboursList_congr {b b' : Minesweeper} (hw : b'.width = b.width)
    (hh : b'.height = b.height) (p : Position) :
    neighboursList b' p = neighboursList b p := by
  unfold neighboursList
  rw [hw, hh]

theorem mines_around_congr {b b' : Minesweeper} (hw : b'.width = b.width)
    (hh : b'.height = b.height) (hm : b'.mines = b.mines) (p : Position) :
    mines_around b' p = mines_around b p := by
  unfold mines_around
  rw [neighboursList_congr hw hh, hm]

theorem mines_around_eq_zero_iff {b : Minesweeper} {p : Position} :
    mines_around b p = 0 ↔ ∀ q ∈ neighboursList b p, q ∉ b.mines := by
  unfold mines_around
  rw [List.length_eq_zero, List.filter_eq_nil_iff]
  simp only [decide_eq_true_eq]

theorem gridFinset_congr {b b' : Minesweeper} (hw : b'.width = b.width)
    (hh : b'.height = b.height) : gridFinset b' = gridFinset b := by
  unfold gridFinset
  rw [hw, hh]

theorem mem_gridFinset {b : Minesweeper} {q : Position} :
    q ∈ gridFinset b ↔ q.1 < b.width ∧ q.2 < b.height := by
  unfold gridFinset
  simp [Finset.mem_product]

theorem Preserved.refl (b : Minesweeper) : Preserved b b :=
  ⟨rfl, rfl, rfl, rfl, fun _ h => h, fun _ h => Or.inl h⟩

theorem preserved_trans {a b c : Minesweeper} (h1 : Preserved a b)
    (h2 : Preserved b c) : Preserved a c := by
  refine ⟨h2.width_eq.trans h1.width_eq, h2.height_eq.trans h1.height_eq,
    h2.mines_eq.trans h1.mines_eq, h2.flagged_eq.trans h1.flagged_eq,
    fun q hq => h2.open_mono (h1.open_mono hq), fun q hq => ?_⟩
  rcases h2.new_unflagged q hq with h | h
  · exact h1.new_unflagged q h
  · exact Or.inr (h1.flagged_eq ▸ h)

theorem Preserved.measure_le {b b' : Minesweeper} (h : Preserved b b') :
    (gridFinset b' \ b'.open_positions).card ≤
      (gridFinset b \ b.open_positions).card := by
  rw [gridFinset_congr h.width_eq h.height_eq]
  exact Finset.card_le_card (fun q hq => by
    rw [Finset.mem_sdiff] at hq ⊢
    exact ⟨hq.1, fun hc => hq.2 (h.open_mono hc)⟩)

theorem closed_trans {a b c : Minesweeper} (hab : Preserved a b)
    (hbc : Preserved b c) (h1 : Closed a b) (h2 : Closed b c) : Closed a c := by
  intro q hq hqa hz r hr hf
  by_cases hqb : q ∈ b.open_positions
  · exact hbc.open_mono (h1 q hqb hqa hz r hr hf)
  · refine h2 q hq hqb ?_ r ?_ ?_
    · rw [mines_around_congr hab.width_eq hab.height_eq hab.mines_eq]; exact hz
    · rw [neighboursList_congr hab.width_eq hab.height_eq]; exact hr
    · rw [hab.flagged_eq]; exact hf

theorem Reach.mono {b b' : Minesweeper} (h : Preserved b b') {p0 r : Position}
    (hr : Reach b' p0 r) : Reach b p0 r := by
  induction hr with
  | base => exact Reach.base
  | step hq hz hn ho hf ih =>
    refine Reach.step ih ?_ ?_ ?_ ?_
    · rw [← mines_around_congr h.width_eq h.height_eq h.mines_eq]; exact hz
    · rw [← neighboursList_congr h.width_eq h.height_eq]; exact hn
    · exact fun hc => ho (h.open_mono hc)
    · rw [← h.flagged_eq]; exact hf

theorem Reach.prepend {b : Minesweeper} {pos q r : Position}
    (hz : mines_around b pos = 0) (hn : q ∈ neighboursList b pos)
    (ho : q ∉ b.open_positions) (hf : q ∉ b.flagged_positions)
    (hr : Reach b q r) : Reach b pos r := by
  induction hr with
  | base => exact Reach.step Reach.base hz hn ho hf
  | step _ hz' hn' ho' hf' ih => exact Reach.step ih hz' hn' ho' hf'

theorem Reach.eq_or_not_open {b : Minesweeper} {p0 r : Position}
    (h : Reach b p0 r) : r = p0 ∨ r ∉ b.open_positions := by
  cases h with
  | base => exact Or.inl rfl
  | step _ _ _ ho _ => exact Or.inr ho

theorem Reach.eq_or_grid {b : Minesweeper} {p0 r : Position}
    (h : Reach b p0 r) : r = p0 ∨ (r.1 < b.width ∧ r.2 < b.height) := by
  cases h with
  | base => exact Or.inl rfl
  | step _ _ hn _ _ => exact Or.inr (neighboursList_bounds hn)

theorem preserved_of_insert {b b' : Minesweeper} {pos : Position}
    (hw : b'.width = b.width) (hh : b'.height = b.height) (hm : b'.mines = b.mines)
    (hf : b'.flagged_positions = b.flagged_positions)
    (ho : b'.open_positions = insert pos b.open_positions)
    (hpf : pos ∉ b.flagged_positions) : Preserved b b' := by
  refine ⟨hw, hh, hm, hf, ?_, ?_⟩
  · rw [ho]; exact fun q hq => Finset.mem_insert_of_mem hq
  · intro q hq
    rw [ho] at hq
    rcases Finset.mem_insert.1 hq with rfl | h
    · exact Or.inr hpf
    · exact Or.inl h

theorem popen_skip {b : Minesweeper} {pos : Position}
    (h : ¬ can_be_opened b pos) : POpen b pos b :=
  ⟨Preserved.refl b, fun _ => rfl, fun hc => absurd hc h, fun hc => absurd hc h,
    fun hc => absurd hc h, fun _ hr => Or.inl hr, fun hc => absurd hc h⟩

theorem popen_mine {b : Minesweeper} {pos : Position} (hc : can_be_opened b pos)
    (hm : pos ∈ b.mines) :
    POpen b pos
      { b with open_positions := insert pos b.open_positions, game_over := true } := by
  refine ⟨preserved_of_insert rfl rfl rfl rfl rfl hc.2.1, fun h => absurd hc h,
    fun _ => Finset.mem_insert_self pos _, fun _ _ => rfl,
    fun _ hnm => absurd hm hnm, fun r hr => ?_, fun _ hnm => absurd hm hnm⟩
  rcases Finset.mem_insert.1 hr with rfl | h
  · exact Or.inr Reach.base
  · exact Or.inl h

theorem popen_nonzero {b : Minesweeper} {pos : Position} (hc : can_be_opened b pos)
    (hm : pos ∉ b.mines) (hz : mines_around b pos ≠ 0) :
    POpen b pos { b with open_positions := insert pos b.open_positions } := by
  refine ⟨preserved_of_insert rfl rfl rfl rfl rfl hc.2.1, fun h => absurd hc h,
    fun _ => Finset.mem_insert_self pos _, fun _ hmm => absurd hmm hm,
    fun _ _ => ⟨rfl, fun q hq => ?_⟩, fun r hr => ?_, fun _ _ => ?_⟩
  · rcases Finset.mem_insert.1 hq with rfl | h
    · exact Or.inr hm
    · exact Or.inl h
  · rcases Finset.mem_insert.1 hr with rfl | h
    · exact Or.inr Reach.base
    · exact Or.inl h
  · intro q hq hqo hzq r hr hf
    rcases Finset.mem_insert.1 hq with rfl | h
    · exact absurd hzq hz
    · exact absurd h hqo

theorem popen_of_qlist {b b' : Minesweeper} {pos : Position}
    (hc : can_be_opened b pos) (hm : pos ∉ b.mines) (hz : mines_around b pos = 0)
    (hq : QList { b with open_positions := insert pos b.open_positions }
      (neighboursList b pos) b') :
    POpen b pos b' := by
  have hp1 : Preserved b { b with open_positions := insert pos b.open_positions } :=
    preserved_of_insert rfl rfl rfl rfl rfl hc.2.1
  have hns : ∀ q ∈ neighboursList b pos, q ∉ b.mines := mines_around_eq_zero_iff.1 hz
  obtain ⟨hg, hnew, hcl, hcov⟩ := hq.safe hns
  refine ⟨preserved_trans hp1 hq.pres, fun h => absurd hc h,
    fun _ => hq.pres.open_mono (Finset.mem_insert_self pos _),
    fun _ hmm => absurd hmm hm, fun _ _ => ⟨hg, fun q hqo => ?_⟩,
    fun r hr => ?_, fun _ _ => ?_⟩
  · rcases hnew q hqo with h | h
    · rcases Finset.mem_insert.1 h with rfl | h'
      · exact Or.inr hm
      · exact Or.inl h'
    · exact Or.inr h
  · rcases hq.sound r hr with h | ⟨q, hqmem, hcan, hreach⟩
    · rcases Finset.mem_insert.1 h with rfl | h'
      · exact Or.inr Reach.base
      · exact Or.inl h'
    · have hqo : q ∉ b.open_positions := fun h' => hcan.1 (Finset.mem_insert_of_mem h')
      exact Or.inr (Reach.prepend hz hqmem hqo hcan.2.1 (Reach.mono hp1 hreach))
  · intro q hq' hqo hzq r hr hf
    by_cases hqpos : q = pos
    · subst hqpos
      exact hcov r hr hf hc.2.2
    · have hq1 : q ∉ ({ b with open_positions := insert pos b.open_positions} :
          Minesweeper).open_positions := by
        intro h
        rcases Finset.mem_insert.1 h with h' | h'
        · exact hqpos h'
        · exact hqo h'
      exact hcl q hq' hq1 hzq r hr hf

theorem qlist_nil {b : Minesweeper} : QList b [] b := by
  refine ⟨Preserved.refl b, fun r hr => Or.inl hr,
    fun _ => ⟨rfl, fun r hr => Or.inl hr, ?_, ?_⟩⟩
  · intro q hq hqo _ _ _ _
    exact absurd hq hqo
  · intro q hq
    exact absurd hq (List.not_mem_nil q)

theorem qlist_cons_opened {b b1 b' : Minesweeper} {q : Position} {rest : List Position}
    (hc : can_be_opened b q) (h1 : POpen b q b1) (h2 : QList b1 rest b') :
    QList b (q :: rest) b' := by
  refine ⟨preserved_trans h1.pres h2.pres, fun r hr => ?_, fun hnm => ?_⟩
  · rcases h2.sound r hr with h | ⟨x, hx, hcan, hreach⟩
    · rcases h1.sound r h with h' | h'
      · exact Or.inl h'
      · exact Or.inr ⟨q, List.mem_cons_self q rest, hc, h'⟩
    · refine Or.inr ⟨x, List.mem_cons_of_mem q hx,
        ⟨fun h' => hcan.1 (h1.pres.open_mono h'), ?_, hc.2.2⟩, Reach.mono h1.pres hreach⟩
      rw [← h1.pres.flagged_eq]
      exact hcan.2.1
  · have hqm : q ∉ b.mines := hnm q (List.mem_cons_self q rest)
    obtain ⟨hg1, hnew1⟩ := h1.safe_case hc hqm
    have hnm1 : ∀ x ∈ rest, x ∉ b1.mines := by
      intro x hx
      rw [h1.pres.mines_eq]
      exact hnm x (List.mem_cons_of_mem q hx)
    obtain ⟨hg2, hnew2, hcl2, hcov2⟩ := h2.safe hnm1
    refine ⟨hg2.trans hg1, fun r hr => ?_,
      closed_trans h1.pres h2.pres (h1.closed hc hqm) hcl2, fun x hx hxf hbg => ?_⟩
    · rcases hnew2 r hr with h | h
      · exact hnew1 r h
      · refine Or.inr ?_
        rw [← h1.pres.mines_eq]
        exact h
    · rcases List.mem_cons.1 hx with rfl | hx'
      · exact h2.pres.open_mono (h1.opens hc)
      · refine hcov2 x hx' ?_ ?_
        · rw [h1.pres.flagged_eq]; exact hxf
        · rw [hg1]; exact hbg

theorem qlist_cons_skip {b b' : Minesweeper} {q : Position} {rest : List Position}
    (hc : ¬ can_be_opened b q) (h2 : QList b rest b') :
    QList b (q :: rest) b' := by
  refine ⟨h2.pres, fun r hr => ?_, fun hnm => ?_⟩
  · rcases h2.sound r hr with h | ⟨x, hx, hcan, hreach⟩
    · exact Or.inl h
    · exact Or.inr ⟨x, List.mem_cons_of_mem q hx, hcan, hreach⟩
  · obtain ⟨hg, hnew, hcl, hcov⟩ := h2.safe (fun x hx => hnm x (List.mem_cons_of_mem q hx))
    refine ⟨hg, hnew, hcl, fun x hx hxf hbg => ?_⟩
    rcases List.mem_cons.1 hx with rfl | hx'
    · have hxo : x ∈ b.open_positions := by
        by_contra hxo
        exact hc ⟨hxo, hxf, hbg⟩
      exact h2.pres.open_mono hxo
    · exact hcov x hx' hxf hbg

theorem measure_insert_lt {b : Minesweeper} {pos : Position}
    (hg : pos.1 < b.width ∧ pos.2 < b.height) (ho : pos ∉ b.open_positions) :
    (gridFinset b \ insert pos b.open_positions).card <
      (gridFinset b \ b.open_positions).card := by
  have h1 : gridFinset b \ insert pos b.open_positions =
      (gridFinset b \ b.open_positions).erase pos := by
    ext x
    simp only [Finset.mem_sdiff, Finset.mem_insert, Finset.mem_erase]
    tauto
  rw [h1]
  exact Finset.card_erase_lt_of_mem (Finset.mem_sdiff.2 ⟨mem_gridFinset.2 hg, ho⟩)

mutual

/-- `Minesweeper::open` (with `Minesweeper::open_position` inlined — the
source inserts `pos` in `open_position` and again in each `match` arm, which
is one insertion on sets) for an in-grid position.  The in-grid bound drives
the termination measure: every guarded insertion shrinks the set of closed
grid cells.  The propositional payload `POpen` records the call's
invariants. -/
def openPosIn (b : Minesweeper) (pos : Position)
    (hg : pos.1 < b.width ∧ pos.2 < b.height) : {b' : Minesweeper // POpen b pos b'} :=
  if hc : can_be_opened b pos then
    if hm : pos ∈ b.mines then
      ⟨{ b with open_positions := insert pos b.open_positions, game_over := true },
        popen_mine hc hm⟩
    else if hz : mines_around b pos = 0 then
      match openList { b with open_positions := insert pos b.open_positions }
          (neighboursList { b with open_positions := insert pos b.open_positions } pos)
          (fun _ hq => neighboursList_bounds hq) with
      | ⟨b2, h2⟩ => ⟨b2, popen_of_qlist hc hm hz h2⟩
    else
      ⟨{ b with open_positions := insert pos b.open_positions }, popen_nonzero hc hm hz⟩
  else ⟨b, popen_skip hc⟩
termination_by ((gridFinset b \ b.open_positions).card, 0, 0)
decreasing_by
  exact Prod.Lex.left _ _ (measure_insert_lt hg hc.1)

/-- The `for_each` loop over the neighbour list in the zero-count arm of
`Minesweeper::open`: re-check `can_be_opened` against the current state,
then recursively open. -/
def openList (b : Minesweeper) (qs : List Position)
    (hqs : ∀ q ∈ qs, q.1 < b.width ∧ q.2 < b.height) :
    {b' : Minesweeper // QList b qs b'} :=
  match qs with
  | [] => ⟨b, qlist_nil⟩
  | q :: rest =>
    if hc : can_be_opened b q then
      match openPosIn b q (hqs q (List.mem_cons_self q rest)) with
      | ⟨b1, h1⟩ =>
        match openList b1 rest (fun x hx => by
            rw [h1.pres.width_eq, h1.pres.height_eq]
            exact hqs x (List.mem_cons_of_mem q hx)) with
        | ⟨b2, h2⟩ => ⟨b2, qlist_cons_opened hc h1 h2⟩
    else
      match openList b rest (fun x hx => hqs x (List.mem_cons_of_mem q hx)) with
      | ⟨b2, h2⟩ => ⟨b2, qlist_cons_skip hc h2⟩
termination_by ((gridFinset b \ b.open_positions).card, 1, qs.length)
decreasing_by
  · exact Prod.Lex.right _ (Prod.Lex.left _ _ Nat.zero_lt_one)
  · rcases lt_or_eq_of_le h1.pres.measure_le with h | h
    · exact Prod.Lex.left _ _ h
    · exact h ▸ Prod.Lex.right _ (Prod.Lex.right _ (Nat.lt_succ_self _))
  · exact Prod.Lex.right _ (Prod.Lex.right _ (Nat.lt_succ_self _))

end

/-- `Minesweeper::open` for an arbitrary position.  The source never
bounds-checks `pos`; only the recursive calls are restricted (to in-grid
neighbours), so the wrapper repeats the body of `openPosIn` without the
in-grid hypothesis. -/
def openPos (b : Minesweeper) (pos : Position) : Minesweeper :=
  if can_be_opened b pos then
    if pos ∈ b.mines then
      { b with open_positions := insert pos b.open_positions, game_over := true }
    else if mines_around b pos = 0 then
      (openList { b with open_positions := insert pos b.open_positions }
        (neighboursList { b with open_positions := insert pos b.open_positions } pos)
        (fun _ hq => neighboursList_bounds hq)).1
    else
      { b with open_positions := insert pos b.open_positions }
  else b

theorem openPos_spec (b : Minesweeper) (pos : Position) : POpen b pos (openPos b pos) := by
  unfold openPos
  by_cases hc : can_be_opened b pos
  · rw [if_pos hc]
    by_cases hm : pos ∈ b.mines
    · rw [if_pos hm]
      exact popen_mine hc hm
    · rw [if_neg hm]
      by_cases hz : mines_around b pos = 0
      · rw [if_pos hz]
        exact popen_of_qlist hc hm hz (openList _ _ _).2
      · rw [if_neg hz]
        exact popen_nonzero hc hm hz
  · rw [if_neg hc]
    exact popen_skip hc

/-- Claim C8: opening an already-open cell, a flagged cell, or any cell once
the game is over, is a no-op: openPositions, flaggedPositions and gameOver
are all unchanged. -/
theorem open_noop_on_guard (b : Minesweeper) (pos : Position)
    (h : pos ∈ b.open_positions ∨ pos ∈ b.flagged_positions ∨ b.game_over = true) :
    (openPos b pos).open_positions = b.open_positions ∧
    (openPos b pos).flagged_positions = b.flagged_positions ∧
    (openPos b pos).game_over = b.game_over := by
  have hc : ¬ can_be_opened b pos := by
    rintro ⟨h1, h2, h3⟩
    rcases h with h | h | h
    · exact h1 h
    · exact h2 h
    · exact Bool.noConfusion (h3.symm.trans h)
  rw [(openPos_spec b pos).skip hc]
  exact ⟨rfl, rfl, rfl⟩

def c8Board : Minesweeper :=
  { width := 2, height := 2, open_positions := ∅, mines := {(0, 0)},
    flagged_positions := {(1, 1)}, game_over := false }

/-- Witness for C8: a concrete flagged cell. -/
theorem open_noop_on_guard_witness :
    ((1, 1) ∈ c8Board.open_positions ∨ (1, 1) ∈ c8Board.flagged_positions ∨
      c8Board.game_over = true) ∧
    ((openPos c8Board (1, 1)).open_positions = c8Board.open_positions ∧
      (openPos c8Board (1, 1)).flagged_positions = c8Board.flagged_positions ∧
      (openPos c8Board (1, 1)).game_over = c8Board.game_over) :=
  ⟨Or.inr (Or.inl (by decide)),
    open_noop_on_guard c8Board (1, 1) (Or.inr (Or.inl (by decide)))⟩

/-- Claim C6: opening an unopened, unflagged mined cell while the game is
running sets gameOver to true and adds exactly that one position to
openPositions (no neighbour expansion; flags untouched). -/
theorem open_mine_detonates (b : Minesweeper) (pos : Position)
    (hg : b.game_over = false) (hm : pos ∈ b.mines)
    (ho : pos ∉ b.open_positions) (hf : pos ∉ b.flagged_positions) :
    (openPos b pos).game_over = true ∧
    (openPos b pos).open_positions = insert pos b.open_positions ∧
    (openPos b pos).flagged_positions = b.flagged_positions := by
  have hc : can_be_opened b pos := ⟨ho, hf, hg⟩
  rw [(openPos_spec b pos).mine_case hc hm]
  exact ⟨rfl, rfl, rfl⟩

def c6Board : Minesweeper :=
  { width := 2, height := 2, open_positions := ∅, mines := {(0, 0)},
    flagged_positions := ∅, game_over := false }

/-- Witness for C6: detonating the concrete mine at the origin. -/
theorem open_mine_detonates_witness :
    (c6Board.game_over = false ∧ (0, 0) ∈ c6Board.mines ∧
      (0, 0) ∉ c6Board.open_positions ∧ (0, 0) ∉ c6Board.flagged_positions) ∧
    ((openPos c6Board (0, 0)).game_over = true ∧
      (openPos c6Board (0, 0)).open_positions = insert (0, 0) c6Board.open_positions ∧
      (openPos c6Board (0, 0)).flagged_positions = c6Board.flagged_positions) :=
  ⟨⟨rfl, by decide, by decide, by decide⟩,
    open_mine_detonates c6Board (0, 0) rfl (by decide) (by decide) (by decide)⟩

/-- Claim C9: `open` always terminates — in the model it is a total function
(defined by well-founded recursion on the number of closed grid cells).  The
open set grows monotonically, every newly opened cell lies inside the grid
(or is the argument itself), so the growth of one call is bounded by the
grid area plus one. -/
theorem open_total_and_bounded (b : Minesweeper) (pos : Position) :
    b.open_positions ⊆ (openPos b pos).open_positions ∧
    (openPos b pos).open_positions ⊆ insert pos (b.open_positions ∪ gridFinset b) ∧
    (openPos b pos).open_positions.card ≤
      b.open_positions.card + (b.width * b.height + 1) := by
  have hs := (openPos_spec b pos).sound
  have hsub : (openPos b pos).open_positions ⊆
      insert pos (b.open_positions ∪ gridFinset b) := by
    intro r hr
    rcases hs r hr with h | h
    · exact Finset.mem_insert_of_mem (Finset.mem_union_left _ h)
    · rcases h.eq_or_grid with rfl | hgrid
      · exact Finset.mem_insert_self _ _
      · exact Finset.mem_insert_of_mem (Finset.mem_union_right _ (mem_gridFinset.2 hgrid))
  refine ⟨(openPos_spec b pos).pres.open_mono, hsub, ?_⟩
  have hg : (gridFinset b).card = b.width * b.height := by
    unfold gridFinset
    rw [Finset.card_product, Finset.card_range, Finset.card_range]
  have h1 : (openPos b pos).open_positions.card ≤
      (insert pos (b.open_positions ∪ gridFinset b)).card := Finset.card_le_card hsub
  have h2 : (insert pos (b.open_positions ∪ gridFinset b)).card ≤
      (b.open_positions ∪ gridFinset b).card + 1 := Finset.card_insert_le _ _
  have h3 := Finset.card_union_le b.open_positions (gridFinset b)
  omega

/-- Chebyshev adjacency as the spec words it: distance one in the maximum
metric, excluding the cell itself. -/
def chebNeighbour (p q : Position) : Prop :=
  q ≠ p ∧ ((q.1 : Int) - p.1).natAbs ≤ 1 ∧ ((q.2 : Int) - p.2).natAbs ≤ 1

instance (p q : Position) : Decidable (chebNeighbour p q) :=
  inferInstanceAs (Decidable (_ ∧ _ ∧ _))

/-- Claim C7: for an in-bounds position (on a u16-sized board),
`mines_around` counts exactly the mines at Chebyshev distance one inside the
grid, and is at most 8 in general, at most 3 for corner cells and at most 5
for non-corner edge cells. -/
theorem mines_around_correct (b : Minesweeper) (p : Position)
    (hw : b.width ≤ 65535) (hh : b.height ≤ 65535)
    (hx : p.1 < b.width) (hy : p.2 < b.height) :
    mines_around b p = (b.mines.filter
      (fun q => chebNeighbour p q ∧ q.1 < b.width ∧ q.2 < b.height)).card ∧
    mines_around b p ≤ 8 ∧
    (((p.1 = 0 ∨ p.1 = b.width - 1) ∧ (p.2 = 0 ∨ p.2 = b.height - 1)) →
      mines_around b p ≤ 3) ∧
    ((((p.1 = 0 ∨ p.1 = b.width - 1) ∧ ¬(p.2 = 0 ∨ p.2 = b.height - 1)) ∨
      (¬(p.1 = 0 ∨ p.1 = b.width - 1) ∧ (p.2 = 0 ∨ p.2 = b.height - 1))) →
      mines_around b p ≤ 5) := by
  have hmin1 : min (p.1 + 1) 65535 = p.1 + 1 := by omega
  have hmin2 : min (p.2 + 1) 65535 = p.2 + 1 := by omega
  have hlen : mines_around b p =
      ((neighboursList b p).filter (fun q => q ∈ b.mines)).toFinset.card := by
    unfold mines_around
    rw [List.toFinset_card_of_nodup (nodup_neighboursList.filter _)]
  have hset : ((neighboursList b p).filter (fun q => q ∈ b.mines)).toFinset =
      b.mines.filter (fun q => chebNeighbour p q ∧ q.1 < b.width ∧ q.2 < b.height) := by
    ext q
    simp only [List.mem_toFinset, List.mem_filter, Finset.mem_filter,
      decide_eq_true_eq, mem_neighboursList, hmin1, hmin2]
    unfold chebNeighbour
    constructor
    · rintro ⟨⟨h1, h2, h3, h4, h5, h6, h7⟩, h8⟩
      exact ⟨h8, ⟨h5, by omega, by omega⟩, h6, h7⟩
    · rintro ⟨h8, ⟨h5, ha, hb⟩, h6, h7⟩
      exact ⟨⟨by omega, by omega, by omega, by omega, h5, h6, h7⟩, h8⟩
  have pair_le : ∀ (a a' : Nat) (s : Finset Nat), (∀ x ∈ s, x = a ∨ x = a') →
      s.card ≤ 2 := by
    intro a a' s hs
    have hsub : s ⊆ ({a, a'} : Finset Nat) := by
      intro x hx
      rw [Finset.mem_insert, Finset.mem_singleton]
      exact hs x hx
    refine le_trans (Finset.card_le_card hsub) ?_
    refine le_trans (Finset.card_insert_le _ _) ?_
    rw [Finset.card_singleton]
  have hsub2 : ((neighboursList b p).filter (fun q => q ∈ b.mines)).toFinset ⊆
      ((Finset.Icc (p.1 - 1) (p.1 + 1) ∩ Finset.range b.width) ×ˢ
        (Finset.Icc (p.2 - 1) (p.2 + 1) ∩ Finset.range b.height)).erase p := by
    intro q hq
    rw [List.mem_toFinset, List.mem_filter] at hq
    have h := mem_neighboursList.1 hq.1
    obtain ⟨h1, h2, h3, h4, h5, h6, h7⟩ := h
    rw [Finset.mem_erase]
    refine ⟨h5, ?_⟩
    rw [Finset.mem_product, Finset.mem_inter, Finset.mem_inter, Finset.mem_Icc,
      Finset.mem_Icc, Finset.mem_range, Finset.mem_range]
    exact ⟨⟨⟨h1, by omega⟩, h6⟩, ⟨⟨h3, by omega⟩, h7⟩⟩
  have hp : p ∈ ((Finset.Icc (p.1 - 1) (p.1 + 1) ∩ Finset.range b.width) ×ˢ
      (Finset.Icc (p.2 - 1) (p.2 + 1) ∩ Finset.range b.height)) := by
    rw [Finset.mem_product, Finset.mem_inter, Finset.mem_inter, Finset.mem_Icc,
      Finset.mem_Icc, Finset.mem_range, Finset.mem_range]
    exact ⟨⟨⟨by omega, by omega⟩, hx⟩, ⟨⟨by omega, by omega⟩, hy⟩⟩
  have hcard : mines_around b p ≤
      (Finset.Icc (p.1 - 1) (p.1 + 1) ∩ Finset.range b.width).card *
      (Finset.Icc (p.2 - 1) (p.2 + 1) ∩ Finset.range b.height).card - 1 := by
    rw [hlen]
    refine le_trans (Finset.card_le_card hsub2) ?_
    rw [Finset.card_erase_of_mem hp, Finset.card_product]
  have hSx3 : (Finset.Icc (p.1 - 1) (p.1 + 1) ∩ Finset.range b.width).card ≤ 3 := by
    refine le_trans (Finset.card_le_card Finset.inter_subset_left) ?_
    rw [Nat.card_Icc]
    omega
  have hSy3 : (Finset.Icc (p.2 - 1) (p.2 + 1) ∩ Finset.range b.height).card ≤ 3 := by
    refine le_trans (Finset.card_le_card Finset.inter_subset_left) ?_
    rw [Nat.card_Icc]
    omega
  have hSxe : (p.1 = 0 ∨ p.1 = b.width - 1) →
      (Finset.Icc (p.1 - 1) (p.1 + 1) ∩ Finset.range b.width).card ≤ 2 := by
    rintro (hcase | hcase)
    · refine pair_le p.1 (p.1 + 1) _ (fun x hxm => ?_)
      rw [Finset.mem_inter, Finset.mem_Icc, Finset.mem_range] at hxm
      omega
    · refine pair_le (p.1 - 1) p.1 _ (fun x hxm => ?_)
      rw [Finset.mem_inter, Finset.mem_Icc, Finset.mem_range] at hxm
      omega
  have hSye : (p.2 = 0 ∨ p.2 = b.height - 1) →
      (Finset.Icc (p.2 - 1) (p.2 + 1) ∩ Finset.range b.height).card ≤ 2 := by
    rintro (hcase | hcase)
    · refine pair_le p.2 (p.2 + 1) _ (fun x hxm => ?_)
      rw [Finset.mem_inter, Finset.mem_Icc, Finset.mem_range] at hxm
      omega
    · refine pair_le (p.2 - 1) p.2 _ (fun x hxm => ?_)
      rw [Finset.mem_inter, Finset.mem_Icc, Finset.mem_range] at hxm
      omega
  refine ⟨hlen.trans (congrArg Finset.card hset), ?_, ?_, ?_⟩
  · exact le_trans hcard (le_trans
      (Nat.sub_le_sub_right (Nat.mul_le_mul hSx3 hSy3) 1) (by norm_num))
  · rintro ⟨hcx, hcy⟩
    exact le_trans hcard (le_trans
      (Nat.sub_le_sub_right (Nat.mul_le_mul (hSxe hcx) (hSye hcy)) 1) (by norm_num))
  · rintro (⟨hcx, hcy⟩ | ⟨hcx, hcy⟩)
    · exact le_trans hcard (le_trans
        (Nat.sub_le_sub_right (Nat.mul_le_mul (hSxe hcx) hSy3) 1) (by norm_num))
    · exact le_trans hcard (le_trans
        (Nat.sub_le_sub_right (Nat.mul_le_mul hSx3 (hSye hcy)) 1) (by norm_num))

def c7Board : Minesweeper :=
  { width := 2, height := 2, open_positions := ∅, mines := {(0, 0)},
    flagged_positions := ∅, game_over := false }

/-- Witness for C7 at the concrete in-grid corner cell (1, 1) of a 2x2 board
with one mine. -/
theorem mines_around_correct_witness :
    (c7Board.width ≤ 65535 ∧ c7Board.height ≤ 65535 ∧
      (1 : Nat) < c7Board.width ∧ (1 : Nat) < c7Board.height) ∧
    (mines_around c7Board (1, 1) = (c7Board.mines.filter
      (fun q => chebNeighbour (1, 1) q ∧ q.1 < c7Board.width ∧ q.2 < c7Board.height)).card ∧
    mines_around c7Board (1, 1) ≤ 8 ∧
    ((((1, 1) : Position).1 = 0 ∨ ((1, 1) : Position).1 = c7Board.width - 1) ∧
      (((1, 1) : Position).2 = 0 ∨ ((1, 1) : Position).2 = c7Board.height - 1) →
      mines_around c7Board (1, 1) ≤ 3) ∧
    ((((((1, 1) : Position).1 = 0 ∨ ((1, 1) : Position).1 = c7Board.width - 1) ∧
      ¬(((1, 1) : Position).2 = 0 ∨ ((1, 1) : Position).2 = c7Board.height - 1)) ∨
      (¬(((1, 1) : Position).1 = 0 ∨ ((1, 1) : Position).1 = c7Board.width - 1) ∧
      (((1, 1) : Position).2 = 0 ∨ ((1, 1) : Position).2 = c7Board.height - 1))) →
      mines_around c7Board (1, 1) ≤ 5)) :=
  ⟨⟨by decide, by decide, by decide, by decide⟩,
    mines_around_correct c7Board (1, 1) (by decide) (by decide) (by decide) (by decide)⟩

/-- Characterisation of one `open` call on an openable non-mine cell: the
resulting open set is exactly the old one plus the `Reach` closure. -/
theorem openPos_mem_iff (b : Minesweeper) (pos : Position)
    (hc : can_be_opened b pos) (hm : pos ∉ b.mines) :
    ∀ r, r ∈ (openPos b pos).open_positions ↔
      (r ∈ b.open_positions ∨ Reach b pos r) := by
  have hspec := openPos_spec b pos
  intro r
  constructor
  · intro hr
    exact hspec.sound r hr
  · rintro (hr | hr)
    · exact hspec.pres.open_mono hr
    · induction hr with
      | base => exact hspec.opens hc
      | @step q r hq hz hn ho hf ih =>
        have hcl := hspec.closed hc hm
        have hqno : q ∉ b.open_positions := by
          rcases hq.eq_or_not_open with rfl | hno
          · exact hc.1
          · exact hno
        exact hcl q ih hqno hz r hn hf

/-- Claim C5 (amended): opening an in-grid, unopened, unflagged, non-mine,
zero-count cell while the game runs reveals exactly the `Reach` closure of
the cell: the zero-count region connected to it through cells that are
neither flagged nor already open, together with that region's unflagged,
unopened bordering cells — and nothing else. -/
theorem flood_fill_exact (b : Minesweeper) (pos : Position)
    (hgame : b.game_over = false) (hx : pos.1 < b.width) (hy : pos.2 < b.height)
    (ho : pos ∉ b.open_positions) (hf : pos ∉ b.flagged_positions)
    (hm : pos ∉ b.mines) (hz : mines_around b pos = 0) :
    ∀ r, r ∈ (openPos b pos).open_positions ↔
      (r ∈ b.open_positions ∨ Reach b pos r) :=
  openPos_mem_iff b pos ⟨ho, hf, hgame⟩ hm

def c5Board : Minesweeper :=
  { width := 2, height := 2, open_positions := ∅, mines := ∅,
    flagged_positions := ∅, game_over := false }

/-- Witness for C5 (amended) on a mine-free 2x2 board. -/
theorem flood_fill_exact_witness :
    (c5Board.game_over = false ∧ (0 : Nat) < c5Board.width ∧
      (0 : Nat) < c5Board.height ∧ (0, 0) ∉ c5Board.open_positions ∧
      (0, 0) ∉ c5Board.flagged_positions ∧ (0, 0) ∉ c5Board.mines ∧
      mines_around c5Board (0, 0) = 0) ∧
    (∀ r, r ∈ (openPos c5Board (0, 0)).open_positions ↔
      (r ∈ c5Board.open_positions ∨ Reach c5Board (0, 0) r)) :=
  ⟨⟨rfl, by decide, by decide, by decide, by decide, by decide, by decide⟩,
    flood_fill_exact c5Board (0, 0) rfl (by decide) (by decide) (by decide)
      (by decide) (by decide) (by decide)⟩

def c5CexBoard : Minesweeper :=
  { width := 3, height := 1, open_positions := {(1, 0)}, mines := ∅,
    flagged_positions := ∅, game_over := false }

/-- Counterexample to C5 as stated: on a mine-free 3x1 board whose middle
cell is already open, (2,0) belongs to the zero-count region of (0,0) under
the claim's connectivity (through zero-count non-flagged cells) and is
neither flagged nor open, yet opening (0,0) does not reveal it — the flood
fill does not expand through the already-open middle cell. -/
theorem flood_fill_claim_cex :
    c5CexBoard.game_over = false ∧
    (0 : Nat) < c5CexBoard.width ∧ (0 : Nat) < c5CexBoard.height ∧
    (0, 0) ∉ c5CexBoard.open_positions ∧ (0, 0) ∉ c5CexBoard.flagged_positions ∧
    (0, 0) ∉ c5CexBoard.mines ∧ mines_around c5CexBoard (0, 0) = 0 ∧
    ReachSpec c5CexBoard (0, 0) (2, 0) ∧ mines_around c5CexBoard (2, 0) = 0 ∧
    (2, 0) ∉ c5CexBoard.flagged_positions ∧ (2, 0) ∉ c5CexBoard.open_positions ∧
    (2, 0) ∉ (openPos c5CexBoard (0, 0)).open_positions := by
  refine ⟨rfl, by decide, by decide, by decide, by decide, by decide, by decide,
    ?_, by decide, by decide, by decide, ?_⟩
  · have h1 : ReachSpec c5CexBoard (0, 0) (1, 0) :=
      ReachSpec.step ReachSpec.base (by decide) (by decide) (by decide)
    exact ReachSpec.step h1 (by decide) (by decide) (by decide)
  · have hiff := openPos_mem_iff c5CexBoard (0, 0) ⟨by decide, by decide, rfl⟩ (by decide)
    intro hmem
    rcases (hiff (2, 0)).1 hmem with h | h
    · exact absurd h (by decide)
    · have key : ∀ r, Reach c5CexBoard (0, 0) r → r = (0, 0) := by
        intro r hr
        induction hr with
        | base => rfl
        | step hq hz hn ho hf ih =>
          rw [ih] at hn
          have hlist : neighboursList c5CexBoard (0, 0) = [(1, 0)] := by decide
          rw [hlist, List.mem_singleton] at hn
          rw [hn] at ho
          exact absurd (by decide) ho
      exact absurd (key _ h) (by decide)

/-- Claim C2 (amended): the source does not bounds-check `open`.  For an
out-of-grid position, flags are never touched and (when all mines lie inside
the grid) gameOver is unchanged, but when the position is not already open,
not flagged, and the game is running, `open` does mutate the board: the
out-of-grid position itself is inserted into openPositions. -/
theorem open_out_of_bounds (b : Minesweeper) (pos : Position)
    (hoob : b.width ≤ pos.1 ∨ b.height ≤ pos.2) :
    (openPos b pos).flagged_positions = b.flagged_positions ∧
    (¬ can_be_opened b pos → openPos b pos = b) ∧
    (can_be_opened b pos → pos ∈ (openPos b pos).open_positions ∧
      (openPos b pos).open_positions ≠ b.open_positions) ∧
    ((∀ m ∈ b.mines, m.1 < b.width ∧ m.2 < b.height) →
      (openPos b pos).game_over = b.game_over) := by
  have hspec := openPos_spec b pos
  refine ⟨hspec.pres.flagged_eq, hspec.skip,
    fun hc => ⟨hspec.opens hc, fun heq => hc.1 (heq ▸ hspec.opens hc)⟩, fun hmg => ?_⟩
  by_cases hc : can_be_opened b pos
  · have hm : pos ∉ b.mines := by
      intro hmem
      rcases hmg pos hmem with ⟨h1, h2⟩
      rcases hoob with hcase | hcase
      · omega
      · omega
    exact (hspec.safe_case hc hm).1
  · rw [hspec.skip hc]

def c2Board : Minesweeper :=
  { width := 2, height := 2, open_positions := ∅, mines := {(1, 0)},
    flagged_positions := ∅, game_over := false }

/-- Witness for C2 (amended) at the out-of-grid cell (2,0) of a 2x2 board. -/
theorem open_out_of_bounds_witness :
    (c2Board.width ≤ ((2, 0) : Position).1 ∨ c2Board.height ≤ ((2, 0) : Position).2) ∧
    ((openPos c2Board (2, 0)).flagged_positions = c2Board.flagged_positions ∧
     (¬ can_be_opened c2Board (2, 0) → openPos c2Board (2, 0) = c2Board) ∧
     (can_be_opened c2Board (2, 0) → (2, 0) ∈ (openPos c2Board (2, 0)).open_positions ∧
       (openPos c2Board (2, 0)).open_positions ≠ c2Board.open_positions) ∧
     ((∀ m ∈ c2Board.mines, m.1 < c2Board.width ∧ m.2 < c2Board.height) →
       (openPos c2Board (2, 0)).game_over = c2Board.game_over)) :=
  ⟨Or.inl (by decide), open_out_of_bounds c2Board (2, 0) (Or.inl (by decide))⟩

/-- Counterexample to C2 as stated: opening the out-of-grid cell (2,0) on a
2x2 board (with a mine at (1,0), so no cascade) changes the state — (2,0) is
inserted into openPositions. -/
theorem open_out_of_bounds_cex :
    c2Board.width ≤ ((2, 0) : Position).1 ∧
    (openPos c2Board (2, 0)).open_positions ≠ c2Board.open_positions := by
  exact ⟨by decide, by decide⟩

/-- The two mutating operations the host adapter can invoke on the board. -/
inductive Act
  | openA (p : Position)
  | flagA (p : Position)
  deriving DecidableEq

def applyAct (b : Minesweeper) : Act → Minesweeper
  | Act.openA p => openPos b p
  | Act.flagA p => toggle_flag b p

def runActs (b : Minesweeper) : List Act → Minesweeper
  | [] => b
  | a :: rest => runActs (applyAct b a) rest

/-- A trace that never flags an already-open cell (the restriction forced by
the counterexample to C1 as stated). -/
def safeTrace (b : Minesweeper) : List Act → Prop
  | [] => True
  | a :: rest =>
    (∀ p, a = Act.flagA p → p ∉ b.open_positions) ∧ safeTrace (applyAct b a) rest

theorem openPos_disjoint (b : Minesweeper) (pos : Position)
    (h : ∀ q ∈ b.open_positions, q ∉ b.flagged_positions) :
    ∀ q ∈ (openPos b pos).open_positions, q ∉ (openPos b pos).flagged_positions := by
  intro q hq
  rw [(openPos_spec b pos).pres.flagged_eq]
  rcases (openPos_spec b pos).pres.new_unflagged q hq with h' | h'
  · exact h q h'
  · exact h'

theorem toggle_flag_disjoint (b : Minesweeper) (pos : Position)
    (hpo : pos ∉ b.open_positions)
    (h : ∀ q ∈ b.open_positions, q ∉ b.flagged_positions) :
    ∀ q ∈ (toggle_flag b pos).open_positions,
      q ∉ (toggle_flag b pos).flagged_positions := by
  unfold toggle_flag
  by_cases hg : b.game_over
  · rw [if_pos hg]
    exact h
  · rw [if_neg hg]
    by_cases hf : pos ∈ b.flagged_positions
    · rw [if_pos hf]
      intro q hq hmem
      exact h q hq (Finset.mem_of_mem_erase hmem)
    · rw [if_neg hf]
      intro q hq hmem
      rcases Finset.mem_insert.1 hmem with rfl | h'
      · exact hpo hq
      · exact h q hq h'

theorem safeTrace_disjoint (acts : List Act) :
    ∀ (b : Minesweeper), safeTrace b acts →
      (∀ q ∈ b.open_positions, q ∉ b.flagged_positions) →
      ∀ q ∈ (runActs b acts).open_positions,
        q ∉ (runActs b acts).flagged_positions := by
  induction acts with
  | nil => exact fun b _ h => h
  | cons a rest ih =>
    intro b hsafe h
    refine ih (applyAct b a) hsafe.2 ?_
    cases a with
    | openA p => exact openPos_disjoint b p h
    | flagA p => exact toggle_flag_disjoint b p (hsafe.1 p rfl) h

/-- Claim C1 (amended): for every board produced by construction and every
sequence of open and toggleFlag calls in which toggleFlag is never applied
to an already-open position, openPositions and flaggedPositions stay
disjoint.  (The restriction is forced by the counterexample: `toggle_flag`
does not consult openPositions, so flagging an open cell breaks
disjointness.) -/
theorem open_flag_disjoint (w h mc : Nat) (draws : List (Nat × Nat))
    (b0 : Minesweeper) (hb0 : new w h mc draws = some b0)
    (acts : List Act) (hsafe : safeTrace b0 acts) :
    (runActs b0 acts).open_positions ∩ (runActs b0 acts).flagged_positions = ∅ := by
  have hd : ∀ q ∈ b0.open_positions, q ∉ b0.flagged_positions := by
    unfold new at hb0
    by_cases hv : validParams w h mc
    · rw [if_pos hv] at hb0
      rcases Option.map_eq_some'.1 hb0 with ⟨m, hm, rfl⟩
      intro q hq
      exact absurd hq (Finset.not_mem_empty q)
    · rw [if_neg hv] at hb0
      exact Option.noConfusion hb0
  have hfin := safeTrace_disjoint acts b0 hsafe hd
  rw [Finset.eq_empty_iff_forall_not_mem]
  intro q hq
  rw [Finset.mem_inter] at hq
  exact hfin q hq.1 hq.2

def c1WitBoard : Minesweeper :=
  { width := 2, height := 2, open_positions := ∅, mines := {(0, 0)},
    flagged_positions := ∅, game_over := false }

/-- Witness for C1 (amended): a constructed 2x2 board, flag a closed cell,
then open another cell. -/
theorem open_flag_disjoint_witness :
    new 2 2 1 [(0, 0)] = some c1WitBoard ∧
    safeTrace c1WitBoard [Act.flagA (0, 1), Act.openA (1, 1)] ∧
    (runActs c1WitBoard [Act.flagA (0, 1), Act.openA (1, 1)]).open_positions ∩
      (runActs c1WitBoard [Act.flagA (0, 1), Act.openA (1, 1)]).flagged_positions = ∅ := by
  have hnew : new 2 2 1 [(0, 0)] = some c1WitBoard := by decide
  have hsafe : safeTrace c1WitBoard [Act.flagA (0, 1), Act.openA (1, 1)] := by
    refine ⟨?_, ?_, trivial⟩
    · intro p hp
      injection hp with hpe
      subst hpe
      decide
    · intro p hp
      exact Act.noConfusion hp
  exact ⟨hnew, hsafe, open_flag_disjoint 2 2 1 [(0, 0)] c1WitBoard hnew _ hsafe⟩

/-- Counterexample to C1 as stated: from the constructed 2x2 board with its
mine at the origin (a reachable state), open the safe cell (1,1) — it has a
neighbouring mine, so only it is revealed — then toggle a flag on that same,
already-open cell: both sets now contain (1,1), so they are not disjoint. -/
theorem open_flag_disjoint_cex :
    new 2 2 1 [(0, 0)] = some c1WitBoard ∧
    (toggle_flag (openPos c1WitBoard (1, 1)) (1, 1)).open_positions ∩
      (toggle_flag (openPos c1WitBoard (1, 1)) (1, 1)).flagged_positions ≠ ∅ :=
  ⟨by decide, by decide⟩

theorem placeMinesLoop_sound (w h mc : Nat) (hw : 0 < w) (hh : 0 < h) :
    ∀ (ds : List (Nat × Nat)) (acc : Finset Position), acc.card ≤ mc →
      (∀ p ∈ acc, p.1 < w ∧ p.2 < h) →
      ∀ out, placeMinesLoop w h mc ds acc = some out →
        out.card = mc ∧ ∀ p ∈ out, p.1 < w ∧ p.2 < h := by
  intro ds
  induction ds with
  | nil =>
    intro acc hcard hgrid out hout
    simp only [placeMinesLoop] at hout
    by_cases hlt : acc.card < mc
    · rw [if_pos hlt] at hout
      exact Option.noConfusion hout
    · rw [if_neg hlt] at hout
      cases hout
      exact ⟨le_antisymm hcard (le_of_not_lt hlt), hgrid⟩
  | cons d rest ih =>
    intro acc hcard hgrid out hout
    simp only [placeMinesLoop] at hout
    by_cases hlt : acc.card < mc
    · rw [if_pos hlt] at hout
      refine ih _ ?_ ?_ out hout
      · refine le_trans (Finset.card_insert_le _ _) ?_
        omega
      · intro p hp
        rcases Finset.mem_insert.1 hp with rfl | hp'
        · exact ⟨Nat.mod_lt _ hw, Nat.mod_lt _ hh⟩
        · exact hgrid p hp'
    · rw [if_neg hlt] at hout
      cases hout
      exact ⟨le_antisymm hcard (le_of_not_lt hlt), hgrid⟩

theorem placeMinesLoop_success (w h mc : Nat) :
    ∀ (ds : List (Nat × Nat)) (acc : Finset Position),
      (∀ d ∈ ds, d.1 < w ∧ d.2 < h ∧ d ∉ acc) → ds.Nodup →
      acc.card + ds.length = mc →
      ∃ out, placeMinesLoop w h mc ds acc = some out := by
  intro ds
  induction ds with
  | nil =>
    intro acc _ _ hlen
    simp only [List.length_nil] at hlen
    refine ⟨acc, ?_⟩
    simp only [placeMinesLoop]
    rw [if_neg (by omega)]
  | cons d rest ih =>
    intro acc hds hnd hlen
    obtain ⟨hd1, hd2, hd3⟩ := hds d (List.mem_cons_self d rest)
    have hdred : ((d.1 % w, d.2 % h) : Position) = d := by
      rw [Nat.mod_eq_of_lt hd1, Nat.mod_eq_of_lt hd2]
    simp only [List.length_cons] at hlen
    have hlt : acc.card < mc := by omega
    simp only [placeMinesLoop]
    rw [if_pos hlt]
    refine ih (insert (d.1 % w, d.2 % h) acc) ?_ (List.nodup_cons.1 hnd).2 ?_
    · intro e he
      obtain ⟨he1, he2, he3⟩ := hds e (List.mem_cons_of_mem d he)
      refine ⟨he1, he2, fun hmem => ?_⟩
      rcases Finset.mem_insert.1 hmem with heq | hmem'
      · rw [hdred] at heq
        subst heq
        exact (List.nodup_cons.1 hnd).1 he
      · exact he3 hmem'
    · rw [hdred, Finset.card_insert_of_not_mem hd3]
      omega

theorem new_succeeds (w h mc : Nat) (hv : validParams w h mc) :
    constructionSucceeds w h mc := by
  obtain ⟨hw, hh, hmc, hlt⟩ := hv
  have hle : mc ≤ w * h := le_trans (le_of_lt hlt) (Nat.mod_le _ _)
  have hinj : Function.Injective (fun k : Nat => ((k % w, k / w) : Position)) := by
    intro a a' hab
    injection hab with h1 h2
    have e1 := Nat.div_add_mod a w
    have e2 := Nat.div_add_mod a' w
    rw [h1, h2] at e1
    omega
  have hnd : ((List.range mc).map (fun k => ((k % w, k / w) : Position))).Nodup :=
    (List.nodup_range mc).map hinj
  have hprop : ∀ d ∈ (List.range mc).map (fun k => ((k % w, k / w) : Position)),
      d.1 < w ∧ d.2 < h ∧ d ∉ (∅ : Finset Position) := by
    intro d hd
    rcases List.mem_map.1 hd with ⟨k, hk, rfl⟩
    rw [List.mem_range] at hk
    refine ⟨Nat.mod_lt _ hw, ?_, Finset.not_mem_empty _⟩
    rw [Nat.div_lt_iff_lt_mul hw]
    calc k < mc := hk
      _ ≤ w * h := hle
      _ = h * w := Nat.mul_comm w h
  have hlen : (∅ : Finset Position).card +
      ((List.range mc).map (fun k => ((k % w, k / w) : Position))).length = mc := by
    rw [Finset.card_empty, List.length_map, List.length_range]
    omega
  obtain ⟨out, hout⟩ := placeMinesLoop_success w h mc _ ∅ hprop hnd hlen
  refine ⟨(List.range mc).map (fun k => ((k % w, k / w) : Position)),
    { width := w, height := h, open_positions := ∅, mines := out,
      flagged_positions := ∅, game_over := false }, ?_⟩
  unfold new
  rw [if_pos ⟨hw, hh, hmc, hlt⟩, hout]
  rfl

/-- Claim C4 (amended): with all parameters u16-representable and the
validity check performed in u16 arithmetic (`mines_count < (width * height)
% 65536`), construction can succeed — some sequence of random draws yields a
board — and every successful construction returns a board with exactly
`mines_count` distinct mines, all inside the grid, with empty open and flag
sets and the game running; for invalid parameters construction always
fails. -/
theorem new_valid_iff (w h mc : Nat) (hw : w < 65536) (hh : h < 65536)
    (hmcu : mc < 65536) :
    (validParams w h mc →
      constructionSucceeds w h mc ∧
      ∀ draws b, new w h mc draws = some b →
        b.width = w ∧ b.height = h ∧ b.mines.card = mc ∧
        (∀ p ∈ b.mines, p.1 < w ∧ p.2 < h) ∧
        b.open_positions = ∅ ∧ b.flagged_positions = ∅ ∧ b.game_over = false) ∧
    (¬ validParams w h mc → ∀ draws, new w h mc draws = none) := by
  constructor
  · intro hv
    refine ⟨new_succeeds w h mc hv, ?_⟩
    intro draws b hb
    unfold new at hb
    rw [if_pos hv] at hb
    rcases Option.map_eq_some'.1 hb with ⟨m, hm, rfl⟩
    obtain ⟨hmc, hgrid⟩ := placeMinesLoop_sound w h mc hv.1 hv.2.1 draws ∅
      (by simp) (by simp) m hm
    exact ⟨rfl, rfl, hmc, hgrid, rfl, rfl, rfl⟩
  · intro hv draws
    unfold new
    rw [if_neg hv]

/-- Witness for C4 (amended) at the valid parameters (2, 2, 1). -/
theorem new_valid_iff_witness :
    ((2 : Nat) < 65536 ∧ (2 : Nat) < 65536 ∧ (1 : Nat) < 65536) ∧
    validParams 2 2 1 ∧ constructionSucceeds 2 2 1 :=
  ⟨⟨by decide, by decide, by decide⟩, by decide,
    ((new_valid_iff 2 2 1 (by decide) (by decide) (by decide)).1 (by decide)).1⟩

/-- Counterexample to C4 as stated: (256, 256, 1) satisfies
0 < 1 < 256 * 256 over unbounded integers and every parameter is
u16-representable, yet construction always fails — the u16 product
256 * 256 wraps to 0, so the assert rejects the parameters. -/
theorem new_valid_iff_cex :
    ((0 : Nat) < 256 ∧ (0 : Nat) < 1 ∧ (1 : Nat) < 256 * 256 ∧
      (256 : Nat) < 65536 ∧ (1 : Nat) < 65536) ∧
    ¬ constructionSucceeds 256 256 1 := by
  refine ⟨by norm_num, ?_⟩
  rintro ⟨draws, b, hb⟩
  unfold new at hb
  rw [if_neg (by decide)] at hb
  exact Option.noConfusion hb

/-- At most one mine can ever be open, and only with the game over. -/
def MineInv (b : Minesweeper) : Prop :=
  (b.game_over = false → b.open_positions ∩ b.mines = ∅) ∧
  (b.game_over = true → (b.open_positions ∩ b.mines).card = 1)

theorem openPos_mineInv (b : Minesweeper) (pos : Position) (h : MineInv b) :
    MineInv (openPos b pos) := by
  have hspec := openPos_spec b pos
  by_cases hc : can_be_opened b pos
  · by_cases hm : pos ∈ b.mines
    · rw [hspec.mine_case hc hm]
      constructor
      · intro hfalse
        exact Bool.noConfusion hfalse
      · intro _
        show (insert pos b.open_positions ∩ b.mines).card = 1
        have hset : insert pos b.open_positions ∩ b.mines =
            insert pos (b.open_positions ∩ b.mines) := by
          ext q
          simp only [Finset.mem_inter, Finset.mem_insert]
          constructor
          · rintro ⟨rfl | hq, hmq⟩
            · exact Or.inl rfl
            · exact Or.inr ⟨hq, hmq⟩
          · rintro (rfl | ⟨hq, hmq⟩)
            · exact ⟨Or.inl rfl, hm⟩
            · exact ⟨Or.inr hq, hmq⟩
        rw [hset, h.1 hc.2.2]
        exact Finset.card_singleton pos
    · obtain ⟨hg, hnew⟩ := hspec.safe_case hc hm
      constructor
      · intro _
        rw [Finset.eq_empty_iff_forall_not_mem]
        intro q hq
        rw [Finset.mem_inter] at hq
        have hqm : q ∈ b.mines := by
          rw [← hspec.pres.mines_eq]
          exact hq.2
        rcases hnew q hq.1 with hqo | hqnm
        · have hemp := h.1 hc.2.2
          rw [Finset.eq_empty_iff_forall_not_mem] at hemp
          exact hemp q (Finset.mem_inter.2 ⟨hqo, hqm⟩)
        · exact hqnm hqm
      · intro hgot
        rw [hg, hc.2.2] at hgot
        exact Bool.noConfusion hgot
  · rw [hspec.skip hc]
    exact h

theorem toggle_flag_mineInv (b : Minesweeper) (pos : Position) (h : MineInv b) :
    MineInv (toggle_flag b pos) := by
  unfold toggle_flag
  by_cases hg : b.game_over
  · rw [if_pos hg]
    exact h
  · rw [if_neg hg]
    by_cases hf : pos ∈ b.flagged_positions
    · rw [if_pos hf]
      exact h
    · rw [if_neg hf]
      exact h

theorem runActs_mineInv (acts : List Act) :
    ∀ b : Minesweeper, MineInv b → MineInv (runActs b acts) := by
  induction acts with
  | nil => exact fun _ h => h
  | cons a rest ih =>
    intro b h
    refine ih (applyAct b a) ?_
    cases a with
    | openA p => exact openPos_mineInv b p h
    | flagA p => exact toggle_flag_mineInv b p h

theorem mines_around_le_nine (b : Minesweeper) (p : Position) :
    mines_around b p ≤ 9 := by
  unfold mines_around
  refine le_trans (List.length_filter_le _ _) ?_
  rw [← List.toFinset_card_of_nodup nodup_neighboursList]
  have hsub : (neighboursList b p).toFinset ⊆
      Finset.Icc (p.1 - 1) (p.1 + 1) ×ˢ Finset.Icc (p.2 - 1) (p.2 + 1) := by
    intro q hq
    rw [List.mem_toFinset] at hq
    obtain ⟨h1, h2, h3, h4, h5, h6, h7⟩ := mem_neighboursList.1 hq
    rw [Finset.mem_product, Finset.mem_Icc, Finset.mem_Icc]
    omega
  refine le_trans (Finset.card_le_card hsub) ?_
  rw [Finset.card_product, Nat.card_Icc, Nat.card_Icc]
  have h1 : p.1 + 1 + 1 - (p.1 - 1) ≤ 3 := by omega
  have h2 : p.2 + 1 + 1 - (p.2 - 1) ≤ 3 := by omega
  exact le_trans (Nat.mul_le_mul h1 h2) (by norm_num)

theorem cellToken_explosion {b : Minesweeper} {p : Position}
    (h : cellToken b p = EXPLOSION) :
    b.game_over = true ∧ p ∈ b.mines ∧ p ∈ b.open_positions := by
  have hdigit : ∀ n : Nat, n ≤ 9 → toString n ≠ EXPLOSION := by
    intro n hn
    interval_cases n <;> decide
  unfold cellToken at h
  by_cases hg : b.game_over = false
  · rw [if_pos hg] at h
    by_cases ho : p ∈ b.open_positions
    · rw [if_pos ho] at h
      exact absurd h (hdigit _ (mines_around_le_nine b p))
    · rw [if_neg ho] at h
      by_cases hf : p ∈ b.flagged_positions
      · rw [if_pos hf] at h
        exact absurd h (by decide)
      · rw [if_neg hf] at h
        exact absurd h (by decide)
  · rw [if_neg hg] at h
    have hgt : b.game_over = true := by
      cases hb : b.game_over
      · exact absurd hb hg
      · rfl
    by_cases hm : p ∈ b.mines
    · rw [if_pos hm] at h
      by_cases ho : p ∈ b.open_positions
      · exact ⟨hgt, hm, ho⟩
      · rw [if_neg ho] at h
        exact absurd h (by decide)
    · rw [if_neg hm] at h
      exact absurd h (hdigit _ (mines_around_le_nine b p))

/-- Claim C10: on every board reached from a valid construction by open and
toggleFlag calls on in-bounds positions, at most one mine is open, gameOver
holds exactly when a mine is open, and the rendering shows at most one
explosion glyph (only the detonated open mine renders as an explosion). -/
theorem single_detonation (w h mc : Nat) (draws : List (Nat × Nat))
    (b0 : Minesweeper) (hb0 : new w h mc draws = some b0) (acts : List Act)
    (hin : ∀ a ∈ acts, ∀ p : Position, (a = Act.openA p ∨ a = Act.flagA p) →
      p.1 < b0.width ∧ p.2 < b0.height) :
    ((runActs b0 acts).open_positions ∩ (runActs b0 acts).mines).card ≤ 1 ∧
    ((runActs b0 acts).game_over = true ↔
      ((runActs b0 acts).open_positions ∩ (runActs b0 acts).mines) ≠ ∅) ∧
    ((gridFinset (runActs b0 acts)).filter
      (fun p => cellToken (runActs b0 acts) p = EXPLOSION)).card ≤ 1 := by
  have hinv0 : MineInv b0 := by
    unfold new at hb0
    by_cases hv : validParams w h mc
    · rw [if_pos hv] at hb0
      rcases Option.map_eq_some'.1 hb0 with ⟨m, hm, rfl⟩
      constructor
      · intro _
        exact Finset.empty_inter _
      · intro hgot
        exact Bool.noConfusion hgot
    · rw [if_neg hv] at hb0
      exact Option.noConfusion hb0
  have hinv := runActs_mineInv acts b0 hinv0
  have hcard : ((runActs b0 acts).open_positions ∩ (runActs b0 acts).mines).card ≤ 1 := by
    cases hb : (runActs b0 acts).game_over
    · rw [hinv.1 hb, Finset.card_empty]
      omega
    · rw [hinv.2 hb]
  have hiff : (runActs b0 acts).game_over = true ↔
      ((runActs b0 acts).open_positions ∩ (runActs b0 acts).mines) ≠ ∅ := by
    constructor
    · intro hgt hempty
      have hone := hinv.2 hgt
      rw [hempty, Finset.card_empty] at hone
      exact absurd hone (by decide)
    · intro hne
      cases hb : (runActs b0 acts).game_over
      · exact absurd (hinv.1 hb) hne
      · rfl
  refine ⟨hcard, hiff, le_trans (Finset.card_le_card ?_) hcard⟩
  intro p hp
  rw [Finset.mem_filter] at hp
  obtain ⟨hgt, hm, ho⟩ := cellToken_explosion hp.2
  exact Finset.mem_inter.2 ⟨ho, hm⟩

def c10Board : Minesweeper :=
  { width := 2, height := 2, open_positions := ∅, mines := {(0, 0)},
    flagged_positions := ∅, game_over := false }

/-- Witness for C10: the constructed 2x2 board after opening the in-bounds
cell (0,0). -/
theorem single_detonation_witness :
    (new 2 2 1 [(0, 0)] = some c10Board ∧
      (∀ a ∈ [Act.openA ((0 : Nat), (0 : Nat))], ∀ p : Position,
        (a = Act.openA p ∨ a = Act.flagA p) →
        p.1 < c10Board.width ∧ p.2 < c10Board.height)) ∧
    (((runActs c10Board [Act.openA (0, 0)]).open_positions ∩
        (runActs c10Board [Act.openA (0, 0)]).mines).card ≤ 1 ∧
      ((runActs c10Board [Act.openA (0, 0)]).game_over = true ↔
        ((runActs c10Board [Act.openA (0, 0)]).open_positions ∩
          (runActs c10Board [Act.openA (0, 0)]).mines) ≠ ∅) ∧
      ((gridFinset (runActs c10Board [Act.openA (0, 0)])).filter
        (fun p => cellToken (runActs c10Board [Act.openA (0, 0)]) p = EXPLOSION)).card ≤ 1) := by
  have hb0 : new 2 2 1 [(0, 0)] = some c10Board := by decide
  have hin : ∀ a ∈ [Act.openA ((0 : Nat), (0 : Nat))], ∀ p : Position,
      (a = Act.openA p ∨ a = Act.flagA p) →
      p.1 < c10Board.width ∧ p.2 < c10Board.height := by
    intro a ha p hp
    rw [List.mem_singleton] at ha
    subst ha
    rcases hp with hp | hp
    · injection hp with hpe
      subst hpe
      exact ⟨by decide, by decide⟩
    · exact Act.noConfusion hp
  exact ⟨⟨hb0, hin⟩, single_detonation 2 2 1 [(0, 0)] c10Board hb0 [Act.openA (0, 0)] hin⟩

def c3Board : Minesweeper :=
  { width := 1, height := 1, open_positions := ∅, mines := ∅,
    flagged_positions := ∅, game_over := false }

/-- Claim C3 (code bug, trailing newline): the source comment says no
newline is written after the last row, but the guard
`(0..self.height).contains(&y)` holds for every row, so the rendering of the
1x1 board is one token row followed by a trailing newline. -/
theorem render_trailing_newline : render c3Board = "🟨 \n" := by decide
